import Mathlib

set_option maxRecDepth 4000
set_option linter.unnecessarySeqFocus false

/-!
Verification development for the clipfasion similarity-search and
recommendation engine (`src/clip_matcher.py`, `src/service.py`).

Modelling conventions:
* Embedding vectors are lists of rationals (`Vec`); the Python code stores
  float32 vectors, whose arithmetic we model exactly over `ℚ` (the claims
  under study depend only on comparisons of scores, not on rounding).
* The external FAISS flat inner-product index is modelled by the list of its
  row vectors.  `faissTopK` reproduces the documented behaviour of
  `Index::search` for a flat IP index: it rejects `k ≤ 0` (FAISS throws
  `k should be > 0`), returns the `min(k, N)` best rows sorted by descending
  inner product with ties broken by ascending row id, and pads the output up
  to `k` entries with label `-1` and the sentinel score `-FLT_MAX`
  (modelled by `faissPadScore`) when `k > N`.
* A Python exception escaping a function is modelled by `none` in an
  `Option` result.
* Python list indexing (including negative indices) is modelled by
  `pyIndex`; `none` stands for an `IndexError`.
-/

/-- Embedding vector: the float32 rows of a FAISS flat index, modelled over ℚ. -/
abbrev Vec := List ℚ

/-- Inner product of two vectors (FAISS `METRIC_INNER_PRODUCT` on a flat index). -/
def dotQ (u v : Vec) : ℚ := (List.zipWith (· * ·) u v).sum

/-- Sentinel score FAISS places on padding entries of an inner-product
search when `k` exceeds the number of stored rows: `-FLT_MAX`, i.e.
the negation of the largest finite float32 value. -/
def faissPadScore : ℚ := -340282346638528859811704183484516925440

/-- Python list indexing `l[i]`: negative indices count from the end;
`none` models an `IndexError`. -/
def pyIndex {α : Type} (l : List α) (i : Int) : Option α :=
  if 0 ≤ i then l[i.toNat]?
  else if -(l.length : Int) ≤ i then l[(i + l.length).toNat]?
  else none

/-- Ranking order used by exact FAISS search on an inner-product index:
higher score first, ties broken by smaller row id (insertion order). -/
def rankLE (a b : ℚ × Int) : Prop :=
  b.1 < a.1 ∨ (a.1 = b.1 ∧ a.2 ≤ b.2)

instance : DecidableRel rankLE := fun a b =>
  inferInstanceAs (Decidable (_ ∨ _))

instance : IsTotal (ℚ × Int) rankLE := by
  constructor
  intro a b
  rcases lt_trichotomy a.1 b.1 with h | h | h
  · exact Or.inr (Or.inl h)
  · rcases le_total a.2 b.2 with h2 | h2
    · exact Or.inl (Or.inr ⟨h, h2⟩)
    · exact Or.inr (Or.inr ⟨h.symm, h2⟩)
  · exact Or.inl (Or.inl h)

instance : IsTrans (ℚ × Int) rankLE := by
  constructor
  intro a b c hab hbc
  rcases hab with h | ⟨he, hi⟩
  · rcases hbc with h2 | ⟨he2, _⟩
    · exact Or.inl (h2.trans h)
    · exact Or.inl (he2 ▸ h)
  · rcases hbc with h2 | ⟨he2, hi2⟩
    · exact Or.inl (he ▸ h2)
    · exact Or.inr ⟨he.trans he2, hi.trans hi2⟩

/-- All `(score, row-id)` pairs of an index for a query, ranked by
descending score with ties broken by ascending row id. -/
def scoredRows (mat : List Vec) (q : Vec) : List (ℚ × Int) :=
  ((mat.enum.map (fun p => (dotQ q p.2, (p.1 : Int))))).insertionSort rankLE

/-- Exact search of a flat inner-product FAISS index (`index.search(q, k)`),
returning `(score, row-id)` pairs.  `none` models the exception FAISS raises
for `k ≤ 0`.  When `k > N` the output is padded with `(-FLT_MAX, -1)`. -/
def faissTopK (mat : List Vec) (q : Vec) (k : Int) : Option (List (ℚ × Int)) :=
  if k ≤ 0 then none
  else
    some ((scoredRows mat q).take (min k.toNat mat.length) ++
      List.replicate (k.toNat - mat.length) (faissPadScore, -1))

/-- In-memory state of a `CLIPMatcher`: the global image index (identifier
list plus optional loaded FAISS matrix, `none` when no index is loaded) and
the per-category partition indexes (category → identifier list and matrix).
Newer entries of `partition_indexes` shadow older ones (dict overwrite). -/
structure Matcher where
  image_paths : List String
  image_features : List Vec
  image_index : Option (List Vec)
  partition_indexes : List (String × (List String × List Vec))

/-- Result-collection loop of `search_images_by_vector`: keeps every row
whose id passes the `idx < len(self.image_paths)` guard (note that the FAISS
padding id `-1` passes this guard and resolves, via Python negative
indexing, to the **last** identifier). -/
def collectVectorResults (paths : List String) :
    List (ℚ × Int) → Option (List (String × ℚ))
  | [] => some []
  | (s, idx) :: rest =>
    if idx < (paths.length : Int) then
      match pyIndex paths idx, collectVectorResults paths rest with
      | some p, some acc => some ((p, s) :: acc)
      | _, _ => none
    else collectVectorResults paths rest

/-- Model of `CLIPMatcher.search_images_by_vector`: empty when no index is loaded,
otherwise a raw FAISS search with the caller-supplied `top_k`. -/
def searchImagesByVector (m : Matcher) (q : Vec) (top_k : Int) :
    Option (List (String × ℚ)) :=
  match m.image_index with
  | none => some []
  | some mat =>
    match faissTopK mat q top_k with
    | none => none
    | some rows => collectVectorResults m.image_paths rows

/-- Result-collection loop of `search_in_partition`: rows with id `-1`
(FAISS padding) are filtered out before resolving identifiers. -/
def collectPartitionResults (paths : List String) :
    List (ℚ × Int) → Option (List (String × ℚ))
  | [] => some []
  | (s, idx) :: rest =>
    if idx ≠ -1 ∧ idx < (paths.length : Int) then
      match pyIndex paths idx, collectPartitionResults paths rest with
      | some p, some acc => some ((p, s) :: acc)
      | _, _ => none
    else collectPartitionResults paths rest

/-- Looks up a partition by category name (first match wins, i.e. the most
recently inserted entry). -/
def lookupPartition (m : Matcher) (category : String) :
    Option (List String × List Vec) :=
  (m.partition_indexes.find? (fun e => e.1 == category)).map Prod.snd

/-- Model of `CLIPMatcher.search_in_partition`: empty for a missing category; the
requested `top_k` is clamped to the partition size (`real_k`), a zero
`real_k` short-circuits to the empty list, and FAISS padding ids are
filtered out of the results. -/
def searchInPartition (m : Matcher) (q : Vec) (category : String)
    (top_k : Int) : Option (List (String × ℚ)) :=
  match lookupPartition m category with
  | none => some []
  | some (paths, mat) =>
    let real_k : Int := min top_k (paths.length : Int)
    if real_k = 0 then some []
    else
      match faissTopK mat q real_k with
      | none => none
      | some rows => collectPartitionResults paths rows

example : faissTopK [[1], [2]] [1] 3 =
    some [(2, 1), (1, 0), (faissPadScore, -1)] := by
  norm_num [faissTopK, scoredRows, dotQ, rankLE, List.insertionSort, List.orderedInsert] <;> rfl

example : searchImagesByVector
    ⟨["a"], [[1]], some [[1]], []⟩ [1] 2 = some [("a", 1), ("a", faissPadScore)] := by
  norm_num [searchImagesByVector, faissTopK, scoredRows, dotQ, rankLE, List.insertionSort,
    List.orderedInsert, collectVectorResults, pyIndex] <;> rfl

example : searchInPartition
    ⟨[], [], none, [("miss", (["a", "b"], [[1], [2]]))]⟩ [1] "app" 5 = some [] := by
  norm_num [searchInPartition, lookupPartition, List.find?] <;> rfl

example : searchInPartition
    ⟨[], [], none, [("app", (["a", "b"], [[1], [2]]))]⟩ [1] "app" 5 =
    some [("b", 2), ("a", 1)] := by
  norm_num [searchInPartition, lookupPartition, List.find?, faissTopK, scoredRows, dotQ,
    rankLE, List.insertionSort, List.orderedInsert, collectPartitionResults, pyIndex] <;> rfl

/-! ### Structural lemmas about the FAISS search model -/

/-- The ranking relation implies non-increasing scores. -/
theorem rankLE_score {a b : ℚ × Int} (h : rankLE a b) : b.1 ≤ a.1 := by
  rcases h with h | ⟨h, _⟩
  · exact h.le
  · exact h.ge

/-- The ranked row list is sorted with respect to `rankLE`. -/
theorem scoredRows_pairwise (mat : List Vec) (q : Vec) :
    (scoredRows mat q).Pairwise rankLE :=
  List.sorted_insertionSort rankLE _

/-- Every ranked row carries a valid row id of the index. -/
theorem scoredRows_mem (mat : List Vec) (q : Vec) {p : ℚ × Int}
    (hp : p ∈ scoredRows mat q) : 0 ≤ p.2 ∧ p.2 < (mat.length : Int) := by
  have hmem : p ∈ mat.enum.map (fun p => (dotQ q p.2, (p.1 : Int))) :=
    (List.perm_insertionSort rankLE _).mem_iff.mp hp
  obtain ⟨⟨i, v⟩, hiv, rfl⟩ := List.mem_map.mp hmem
  have hlt : i < mat.length := by
    have h := List.mem_enum_iff_getElem?.mp hiv
    exact (List.getElem?_eq_some_iff.mp h).1
  exact ⟨Int.ofNat_nonneg i, by simpa using Int.ofNat_lt.mpr hlt⟩

/-- Indexing with a valid non-negative index succeeds. -/
theorem pyIndex_valid {α : Type} (l : List α) {i : Int} (h0 : 0 ≤ i)
    (hl : i < (l.length : Int)) : ∃ a, pyIndex l i = some a := by
  have hn : i.toNat < l.length := by omega
  refine ⟨l[i.toNat], ?_⟩
  simp only [pyIndex, if_pos h0]
  exact List.getElem?_eq_getElem hn

/-- Padding rows (row id `-1`) are ignored by the partition-result loop. -/
theorem collectPartitionResults_pad (paths : List String) (rows : List (ℚ × Int))
    (n : ℕ) (s : ℚ) :
    collectPartitionResults paths (rows ++ List.replicate n (s, -1)) =
      collectPartitionResults paths rows := by
  induction rows with
  | nil =>
    simp only [List.nil_append]
    induction n with
    | zero => rfl
    | succ n ih =>
      simpa [collectPartitionResults, List.replicate_succ] using ih
  | cons hd tl ih =>
    obtain ⟨sc, idx⟩ := hd
    simp only [List.cons_append, collectPartitionResults, List.append_eq, ih]

/-- The partition-result loop succeeds when all row ids are non-negative. -/
theorem collectPartitionResults_isSome (paths : List String)
    (rows : List (ℚ × Int)) (h : ∀ p ∈ rows, 0 ≤ p.2) :
    ∃ res, collectPartitionResults paths rows = some res := by
  induction rows with
  | nil => exact ⟨[], rfl⟩
  | cons hd tl ih =>
    obtain ⟨sc, idx⟩ := hd
    obtain ⟨acc, hacc⟩ := ih (fun p hp => h p (List.mem_cons_of_mem _ hp))
    by_cases hg : idx ≠ -1 ∧ idx < (paths.length : Int)
    · obtain ⟨p, hp⟩ := pyIndex_valid paths (h (sc, idx) (List.mem_cons_self _ _)) hg.2
      exact ⟨(p, sc) :: acc, by simp [collectPartitionResults, hg, hp, hacc]⟩
    · exact ⟨acc, by simpa [collectPartitionResults, hg] using hacc⟩

/-- The partition-result loop returns at most one result per input row. -/
theorem collectPartitionResults_length (paths : List String)
    {rows : List (ℚ × Int)} {res : List (String × ℚ)}
    (h : collectPartitionResults paths rows = some res) :
    res.length ≤ rows.length := by
  induction rows generalizing res with
  | nil =>
    simp only [collectPartitionResults] at h
    simp [← Option.some_inj.mp h]
  | cons hd tl ih =>
    obtain ⟨sc, idx⟩ := hd
    by_cases hg : idx ≠ -1 ∧ idx < (paths.length : Int)
    · simp only [collectPartitionResults, if_pos hg] at h
      rcases hpy : pyIndex paths idx with _ | p <;> rw [hpy] at h
      · exact absurd h (by simp)
      rcases hrec : collectPartitionResults paths tl with _ | acc <;> rw [hrec] at h
      · exact absurd h (by simp)
      obtain rfl : (p, sc) :: acc = res := Option.some_inj.mp h
      simpa using Nat.succ_le_succ (ih hrec)
    · simp only [collectPartitionResults, if_neg hg] at h
      exact (ih h).trans (Nat.le_succ _)

/-- Every result of the partition loop stems from some input row with the
same score. -/
theorem collectPartitionResults_mem (paths : List String)
    {rows : List (ℚ × Int)} {res : List (String × ℚ)}
    (h : collectPartitionResults paths rows = some res)
    {x : String × ℚ} (hx : x ∈ res) : ∃ i, (x.2, i) ∈ rows := by
  induction rows generalizing res with
  | nil =>
    simp only [collectPartitionResults] at h
    rw [← Option.some_inj.mp h] at hx
    simp at hx
  | cons hd tl ih =>
    obtain ⟨sc, idx⟩ := hd
    by_cases hg : idx ≠ -1 ∧ idx < (paths.length : Int)
    · simp only [collectPartitionResults, if_pos hg] at h
      rcases hpy : pyIndex paths idx with _ | p <;> rw [hpy] at h
      · exact absurd h (by simp)
      rcases hrec : collectPartitionResults paths tl with _ | acc <;> rw [hrec] at h
      · exact absurd h (by simp)
      obtain rfl : (p, sc) :: acc = res := Option.some_inj.mp h
      rcases List.mem_cons.mp hx with rfl | hx
      · exact ⟨idx, List.mem_cons_self _ _⟩
      · obtain ⟨i, hi⟩ := ih hrec hx
        exact ⟨i, List.mem_cons_of_mem _ hi⟩
    · simp only [collectPartitionResults, if_neg hg] at h
      obtain ⟨i, hi⟩ := ih h hx
      exact ⟨i, List.mem_cons_of_mem _ hi⟩

/-- The partition loop preserves the non-increasing score ordering. -/
theorem collectPartitionResults_pairwise (paths : List String)
    {rows : List (ℚ × Int)} {res : List (String × ℚ)}
    (hs : rows.Pairwise (fun a b => b.1 ≤ a.1))
    (h : collectPartitionResults paths rows = some res) :
    res.Pairwise (fun x y => y.2 ≤ x.2) := by
  induction rows generalizing res with
  | nil =>
    simp only [collectPartitionResults] at h
    simp [← Option.some_inj.mp h]
  | cons hd tl ih =>
    obtain ⟨sc, idx⟩ := hd
    rw [List.pairwise_cons] at hs
    by_cases hg : idx ≠ -1 ∧ idx < (paths.length : Int)
    · simp only [collectPartitionResults, if_pos hg] at h
      rcases hpy : pyIndex paths idx with _ | p <;> rw [hpy] at h
      · exact absurd h (by simp)
      rcases hrec : collectPartitionResults paths tl with _ | acc <;> rw [hrec] at h
      · exact absurd h (by simp)
      obtain rfl : (p, sc) :: acc = res := Option.some_inj.mp h
      refine List.pairwise_cons.mpr ⟨?_, ih hs.2 hrec⟩
      intro y hy
      obtain ⟨i, hi⟩ := collectPartitionResults_mem paths hrec hy
      exact hs.1 (y.2, i) hi
    · simp only [collectPartitionResults, if_neg hg] at h
      exact ih hs.2 h

/-- The vector-result loop succeeds when all row ids are non-negative. -/
theorem collectVectorResults_isSome (paths : List String)
    (rows : List (ℚ × Int)) (h : ∀ p ∈ rows, 0 ≤ p.2) :
    ∃ res, collectVectorResults paths rows = some res := by
  induction rows with
  | nil => exact ⟨[], rfl⟩
  | cons hd tl ih =>
    obtain ⟨sc, idx⟩ := hd
    obtain ⟨acc, hacc⟩ := ih (fun p hp => h p (List.mem_cons_of_mem _ hp))
    by_cases hg : idx < (paths.length : Int)
    · obtain ⟨p, hp⟩ := pyIndex_valid paths (h (sc, idx) (List.mem_cons_self _ _)) hg
      exact ⟨(p, sc) :: acc, by simp [collectVectorResults, hg, hp, hacc]⟩
    · exact ⟨acc, by simpa [collectVectorResults, hg] using hacc⟩

/-- The vector-result loop returns at most one result per input row. -/
theorem collectVectorResults_length (paths : List String)
    {rows : List (ℚ × Int)} {res : List (String × ℚ)}
    (h : collectVectorResults paths rows = some res) :
    res.length ≤ rows.length := by
  induction rows generalizing res with
  | nil =>
    simp only [collectVectorResults] at h
    simp [← Option.some_inj.mp h]
  | cons hd tl ih =>
    obtain ⟨sc, idx⟩ := hd
    by_cases hg : idx < (paths.length : Int)
    · simp only [collectVectorResults, if_pos hg] at h
      rcases hpy : pyIndex paths idx with _ | p <;> rw [hpy] at h
      · exact absurd h (by simp)
      rcases hrec : collectVectorResults paths tl with _ | acc <;> rw [hrec] at h
      · exact absurd h (by simp)
      obtain rfl : (p, sc) :: acc = res := Option.some_inj.mp h
      simpa using Nat.succ_le_succ (ih hrec)
    · simp only [collectVectorResults, if_neg hg] at h
      exact (ih h).trans (Nat.le_succ _)

/-- Every result of the vector loop stems from some input row with the same
score. -/
theorem collectVectorResults_mem (paths : List String)
    {rows : List (ℚ × Int)} {res : List (String × ℚ)}
    (h : collectVectorResults paths rows = some res)
    {x : String × ℚ} (hx : x ∈ res) : ∃ i, (x.2, i) ∈ rows := by
  induction rows generalizing res with
  | nil =>
    simp only [collectVectorResults] at h
    rw [← Option.some_inj.mp h] at hx
    simp at hx
  | cons hd tl ih =>
    obtain ⟨sc, idx⟩ := hd
    by_cases hg : idx < (paths.length : Int)
    · simp only [collectVectorResults, if_pos hg] at h
      rcases hpy : pyIndex paths idx with _ | p <;> rw [hpy] at h
      · exact absurd h (by simp)
      rcases hrec : collectVectorResults paths tl with _ | acc <;> rw [hrec] at h
      · exact absurd h (by simp)
      obtain rfl : (p, sc) :: acc = res := Option.some_inj.mp h
      rcases List.mem_cons.mp hx with rfl | hx
      · exact ⟨idx, List.mem_cons_self _ _⟩
      · obtain ⟨i, hi⟩ := ih hrec hx
        exact ⟨i, List.mem_cons_of_mem _ hi⟩
    · simp only [collectVectorResults, if_neg hg] at h
      obtain ⟨i, hi⟩ := ih h hx
      exact ⟨i, List.mem_cons_of_mem _ hi⟩

/-- The vector loop preserves the non-increasing score ordering. -/
theorem collectVectorResults_pairwise (paths : List String)
    {rows : List (ℚ × Int)} {res : List (String × ℚ)}
    (hs : rows.Pairwise (fun a b => b.1 ≤ a.1))
    (h : collectVectorResults paths rows = some res) :
    res.Pairwise (fun x y => y.2 ≤ x.2) := by
  induction rows generalizing res with
  | nil =>
    simp only [collectVectorResults] at h
    simp [← Option.some_inj.mp h]
  | cons hd tl ih =>
    obtain ⟨sc, idx⟩ := hd
    rw [List.pairwise_cons] at hs
    by_cases hg : idx < (paths.length : Int)
    · simp only [collectVectorResults, if_pos hg] at h
      rcases hpy : pyIndex paths idx with _ | p <;> rw [hpy] at h
      · exact absurd h (by simp)
      rcases hrec : collectVectorResults paths tl with _ | acc <;> rw [hrec] at h
      · exact absurd h (by simp)
      obtain rfl : (p, sc) :: acc = res := Option.some_inj.mp h
      refine List.pairwise_cons.mpr ⟨?_, ih hs.2 hrec⟩
      intro y hy
      obtain ⟨i, hi⟩ := collectVectorResults_mem paths hrec hy
      exact hs.1 (y.2, i) hi
    · simp only [collectVectorResults, if_neg hg] at h
      exact ih hs.2 h

/-- Rows taken from the ranked list all carry valid non-negative ids. -/
theorem take_scoredRows_nonneg (mat : List Vec) (q : Vec) (n : ℕ) :
    ∀ p ∈ (scoredRows mat q).take n, 0 ≤ p.2 := fun p hp =>
  (scoredRows_mem mat q ((List.take_sublist n _).mem hp)).1

/-- Rows taken from the ranked list keep the ranking order. -/
theorem take_scoredRows_sorted (mat : List Vec) (q : Vec) (n : ℕ) :
    ((scoredRows mat q).take n).Pairwise (fun a b => b.1 ≤ a.1) :=
  (((scoredRows_pairwise mat q).sublist (List.take_sublist n _)).imp
    (fun h => rankLE_score h))

/-- The ranked list has one row per stored vector. -/
theorem scoredRows_length (mat : List Vec) (q : Vec) :
    (scoredRows mat q).length = mat.length := by
  simp [scoredRows, (List.perm_insertionSort rankLE _).length_eq]

/-- Behaviour of `search_in_partition` for a non-negative `top_k`: it never
raises, returns at most `min k N` results sorted by non-increasing score,
and degrades to the empty list for a missing category or `k = 0`. -/
theorem searchInPartition_behavior (m : Matcher) (q : Vec) (cat : String)
    (k : Int) (hk : 0 ≤ k) :
    ∃ r, searchInPartition m q cat k = some r ∧
      r.Pairwise (fun x y => y.2 ≤ x.2) ∧
      (∀ paths mat, lookupPartition m cat = some (paths, mat) →
        r.length ≤ min k.toNat paths.length) ∧
      (lookupPartition m cat = none → r = []) ∧
      (k = 0 → r = []) := by
  rcases h : lookupPartition m cat with _ | ⟨paths, mat⟩
  · exact ⟨[], by simp [searchInPartition, h], by simp, by simp [h], fun _ => rfl,
      fun _ => rfl⟩
  · by_cases h0 : min k (paths.length : Int) = 0
    · refine ⟨[], by simp [searchInPartition, h, h0], by simp, ?_, by simp [h], fun _ => rfl⟩
      intro paths' mat' h'
      simp
    · have hpos : ¬ min k (paths.length : Int) ≤ 0 := by
        rcases (le_min hk (Int.ofNat_nonneg paths.length)).lt_or_eq with hlt | heq
        · omega
        · exact absurd heq.symm h0
      have hfaiss : faissTopK mat q (min k (paths.length : Int)) =
          some ((scoredRows mat q).take (min (min k (paths.length : Int)).toNat mat.length) ++
            List.replicate ((min k (paths.length : Int)).toNat - mat.length)
              (faissPadScore, -1)) := by
        rw [faissTopK, if_neg hpos]
      obtain ⟨res, hres⟩ := collectPartitionResults_isSome paths
        ((scoredRows mat q).take (min (min k (paths.length : Int)).toNat mat.length))
        (take_scoredRows_nonneg mat q _)
      refine ⟨res, ?_, ?_, ?_, by simp [h], ?_⟩
      · simp only [searchInPartition, h, if_neg h0, hfaiss, collectPartitionResults_pad]
        exact hres
      · exact collectPartitionResults_pairwise paths (take_scoredRows_sorted mat q _) hres
      · intro paths' mat' h'
        have hinj := Option.some_inj.mp h'
        obtain ⟨rfl, rfl⟩ : paths = paths' ∧ mat = mat' :=
          ⟨congrArg Prod.fst hinj, congrArg Prod.snd hinj⟩
        have h1 := collectPartitionResults_length paths hres
        have h2 : ((scoredRows mat q).take
            (min (min k (paths.length : Int)).toNat mat.length)).length ≤
            (min k (paths.length : Int)).toNat := by
          rw [List.length_take, scoredRows_length]
          omega
        have h3 : (min k (paths.length : Int)).toNat = min k.toNat paths.length := by
          omega
        omega
      · intro hk0
        have : min k (paths.length : Int) = 0 := by
          rw [hk0]
          exact min_eq_left (Int.ofNat_nonneg paths.length)
        exact absurd this h0

/-- Behaviour of `search_images_by_vector` in the regime `1 ≤ k ≤ N`: it
never raises, returns at most `k` results, sorted by non-increasing score. -/
theorem searchImagesByVector_behavior (m : Matcher) (q : Vec) (k : Int)
    (mat : List Vec) (hm : m.image_index = some mat) (h1 : 1 ≤ k)
    (h2 : k ≤ (mat.length : Int)) :
    ∃ r, searchImagesByVector m q k = some r ∧ r.length ≤ k.toNat ∧
      r.Pairwise (fun x y => y.2 ≤ x.2) := by
  have hfaiss : faissTopK mat q k =
      some ((scoredRows mat q).take (min k.toNat mat.length)) := by
    rw [faissTopK, if_neg (by omega)]
    have : k.toNat - mat.length = 0 := by omega
    rw [this]
    simp
  obtain ⟨res, hres⟩ := collectVectorResults_isSome m.image_paths
    ((scoredRows mat q).take (min k.toNat mat.length))
    (take_scoredRows_nonneg mat q _)
  refine ⟨res, ?_, ?_, ?_⟩
  · simp only [searchImagesByVector, hm, hfaiss]
    exact hres
  · have hl := collectVectorResults_length m.image_paths hres
    rw [List.length_take, scoredRows_length] at hl
    omega
  · exact collectVectorResults_pairwise m.image_paths
      (take_scoredRows_sorted mat q _) hres

/-- Concrete single-item index used to exhibit the `k > N` overflow of
`search_images_by_vector`. -/
def cexC1 : Matcher := ⟨["a"], [[1]], some [[1]], []⟩

/-- C1 counterexample: with one stored item (`N = 1`) and `k = 2`,
`search_images_by_vector` returns 2 results — the FAISS padding row with id
`-1` passes the `idx < len` guard and resolves to the last identifier — so
the output exceeds `min(k, N) = 1`; moreover `k = 0` is forwarded to FAISS,
which raises instead of returning the empty list. -/
theorem claim_C1_counterexample :
    (searchImagesByVector cexC1 [1] 2).map List.length = some 2 ∧
    min 2 cexC1.image_paths.length = 1 ∧
    searchImagesByVector cexC1 [1] 0 = none := by
  refine ⟨?_, by norm_num [cexC1], by norm_num [searchImagesByVector, cexC1, faissTopK]⟩
  norm_num [searchImagesByVector, cexC1, faissTopK, scoredRows, dotQ, rankLE,
    List.insertionSort, List.orderedInsert, collectVectorResults, pyIndex] <;> rfl

/-- C1 (amended): for every index and query, `search_in_partition` with
`k ≥ 0` never raises and returns at most `min(k, N)` results sorted by
non-increasing inner-product score (ties broken by insertion order via the
ranking on row ids), returning the empty list when `k = 0` or the requested
partition key is absent; `search_images_by_vector` satisfies the same
contract in the regime `1 ≤ k ≤ N`, and returns the empty list whenever no
index is loaded — but for `k > N` it returns more than `min(k, N)` entries
(FAISS padding resolved through the last identifier) and for `k ≤ 0` the
underlying library raises. -/
theorem claim_C1_search_contract :
    (∀ (m : Matcher) (q : Vec) (cat : String) (k : Int), 0 ≤ k →
      ∃ r, searchInPartition m q cat k = some r ∧
        r.Pairwise (fun x y => y.2 ≤ x.2) ∧
        (∀ paths mat, lookupPartition m cat = some (paths, mat) →
          r.length ≤ min k.toNat paths.length) ∧
        (lookupPartition m cat = none → r = []) ∧
        (k = 0 → r = [])) ∧
    (∀ (m : Matcher) (q : Vec) (k : Int) (mat : List Vec),
      m.image_index = some mat → 1 ≤ k → k ≤ (mat.length : Int) →
      ∃ r, searchImagesByVector m q k = some r ∧ r.length ≤ k.toNat ∧
        r.Pairwise (fun x y => y.2 ≤ x.2)) ∧
    (∀ (m : Matcher) (q : Vec) (k : Int), m.image_index = none →
      searchImagesByVector m q k = some []) ∧
    (∀ (mat : List Vec) (q : Vec), (scoredRows mat q).Pairwise rankLE) :=
  ⟨searchInPartition_behavior,
   searchImagesByVector_behavior,
   fun m q k h => by rw [searchImagesByVector, h],
   scoredRows_pairwise⟩

/-- Witness: the amended C1 contract applied to a concrete two-item index,
a missing category, and a concrete in-range `k`. -/
theorem claim_C1_search_contract_witness :
    searchInPartition ⟨["a", "b"], [[1], [2]], some [[1], [2]],
      [("app", (["a", "b"], [[1], [2]]))]⟩ [1] "nope" 3 = some [] := by
  obtain ⟨r, hr, _, _, hnone, _⟩ := claim_C1_search_contract.1
    ⟨["a", "b"], [[1], [2]], some [[1], [2]],
      [("app", (["a", "b"], [[1], [2]]))]⟩ [1] "nope" 3 (by norm_num)
  rw [hr, hnone (by simp [lookupPartition, List.find?])]

/-! ### Partitioned query planner (`RecommendService._perform_partitioned_search`) -/

/-- Apparel quota: `int(target_num * 0.5) + 2`.  The float product
`t * 0.5` is exact, so `int` truncation is `t / 2`. -/
def kApparel (t : ℕ) : ℕ := t / 2 + 2

/-- Footwear quota: `int(target_num * 0.3) + 1`.  The double `0.3` is below
`3/10` by a relative error of about `3.7e-17`, so for every catalog-scale
`t` the product rounds to a value with the same floor as `3 * t / 10`. -/
def kFootwear (t : ℕ) : ℕ := 3 * t / 10 + 1

/-- Others quota: `max(3, int(target_num * 0.2) + 1)`; `int(t * 0.2)`
agrees with `t / 5` for every catalog-scale `t`. -/
def kOthers (t : ℕ) : ℕ := max 3 (t / 5 + 1)

/-- Merge order used by `candidates.sort(key=lambda x: x[1], reverse=True)`:
Python sorting is stable, so it coincides with ordering the
position-decorated list by descending score and ascending original
position. -/
def mergeRel (a b : ℕ × (String × ℚ)) : Prop :=
  b.2.2 < a.2.2 ∨ (a.2.2 = b.2.2 ∧ a.1 ≤ b.1)

instance : DecidableRel mergeRel := fun _ _ =>
  inferInstanceAs (Decidable (_ ∨ _))

instance : IsTotal (ℕ × (String × ℚ)) mergeRel := by
  constructor
  intro a b
  rcases lt_trichotomy a.2.2 b.2.2 with h | h | h
  · exact Or.inr (Or.inl h)
  · rcases le_total a.1 b.1 with h2 | h2
    · exact Or.inl (Or.inr ⟨h, h2⟩)
    · exact Or.inr (Or.inr ⟨h.symm, h2⟩)
  · exact Or.inl (Or.inl h)

instance : IsTrans (ℕ × (String × ℚ)) mergeRel := by
  constructor
  intro a b c hab hbc
  rcases hab with h | ⟨he, hi⟩
  · rcases hbc with h2 | ⟨he2, _⟩
    · exact Or.inl (h2.trans h)
    · exact Or.inl (he2 ▸ h)
  · rcases hbc with h2 | ⟨he2, hi2⟩
    · exact Or.inl (he ▸ h2)
    · exact Or.inr ⟨he.trans he2, hi.trans hi2⟩

/-- Stable descending sort of `(identifier, score)` candidates, the model of
`candidates.sort(key=lambda x: x[1], reverse=True)`. -/
def pySortCandidatesDesc (l : List (String × ℚ)) : List (String × ℚ) :=
  (l.enum.insertionSort mergeRel).map Prod.snd

/-- Model of `RecommendService._perform_partitioned_search`: queries the three
configured partitions with their quotas, concatenates the candidates in
partition priority order (apparel, footwear, others) and stably sorts them
by descending score. -/
def performPartitionedSearch (m : Matcher) (uvec : Vec) (target : ℕ) :
    Option (List (String × ℚ)) :=
  match searchInPartition m uvec "apparel" (kApparel target),
      searchInPartition m uvec "footwear" (kFootwear target),
      searchInPartition m uvec "others" (kOthers target) with
  | some a, some f, some o => some (pySortCandidatesDesc (a ++ f ++ o))
  | _, _, _ => none

/-- C2 counterexample: at the configured target `T = 12`
(`AppConfig.default_recommend_num`), the three quotas are 8, 4 and 3,
whose sum 15 exceeds `T`. -/
theorem claim_C2_counterexample :
    kApparel 12 = 8 ∧ kFootwear 12 = 4 ∧ kOthers 12 = 3 ∧
    ¬ (kApparel 12 + kFootwear 12 + kOthers 12 ≤ 12) := by decide

/-- C2 (amended): each quota is `floor(T * ratio) + fixed_floor` (with the
others quota additionally floored at 3), every quota is strictly positive,
and the quotas sum to at most `T + 6` — not to at most `T`: the planner
deliberately over-fetches by the fixed floors. -/
theorem claim_C2_quota_arithmetic :
    ∀ t : ℕ,
      kApparel t = t / 2 + 2 ∧
      kFootwear t = 3 * t / 10 + 1 ∧
      kOthers t = max 3 (t / 5 + 1) ∧
      0 < kApparel t ∧ 0 < kFootwear t ∧ 0 < kOthers t ∧
      kApparel t + kFootwear t + kOthers t ≤ t + 6 := by
  intro t
  refine ⟨rfl, rfl, rfl, ?_, ?_, ?_, ?_⟩ <;>
    simp only [kApparel, kFootwear, kOthers] <;> omega

/-- Apparel candidates of the merge scenario (scores 0.9, 0.8, 0.3, 0.2). -/
def apparelCand : List (String × ℚ) :=
  [("apparel1", 9/10), ("apparel2", 4/5), ("apparel3", 3/10), ("apparel4", 1/5)]

/-- Footwear candidates of the merge scenario (scores 0.85, 0.7, 0.4, 0.1). -/
def footwearCand : List (String × ℚ) :=
  [("footwear1", 17/20), ("footwear2", 7/10), ("footwear3", 2/5), ("footwear4", 1/10)]

/-- C3: the planner concatenates the per-partition results in priority
order and stably sorts them by descending score (so ties keep the
partition-priority-then-rank order, witnessed by the pairwise property of
the decorated sort); merging the 4+4 apparel/footwear scenario candidates
and truncating to 3 yields apparel(0.9), footwear(0.85), apparel(0.8). -/
theorem claim_C3_merge_and_truncate :
    (∀ l : List (String × ℚ),
      (pySortCandidatesDesc l).Pairwise (fun x y => y.2 ≤ x.2) ∧
      (pySortCandidatesDesc l).Perm l ∧
      (l.enum.insertionSort mergeRel).Pairwise mergeRel) ∧
    (∀ m q t a f o,
      searchInPartition m q "apparel" ((kApparel t : ℕ) : Int) = some a →
      searchInPartition m q "footwear" ((kFootwear t : ℕ) : Int) = some f →
      searchInPartition m q "others" ((kOthers t : ℕ) : Int) = some o →
      performPartitionedSearch m q t = some (pySortCandidatesDesc (a ++ f ++ o))) ∧
    (pySortCandidatesDesc (apparelCand ++ footwearCand)).take 3 =
      [("apparel1", 9/10), ("footwear1", 17/20), ("apparel2", 4/5)] := by
  refine ⟨?_, ?_, ?_⟩
  · intro l
    refine ⟨?_, ?_, List.sorted_insertionSort mergeRel _⟩
    · unfold pySortCandidatesDesc
      refine List.Pairwise.map Prod.snd ?_ (List.sorted_insertionSort mergeRel _)
      intro a b hab
      rcases hab with h | ⟨h, _⟩
      · exact h.le
      · exact h.ge
    · unfold pySortCandidatesDesc
      have h1 := (List.perm_insertionSort mergeRel l.enum).map Prod.snd
      rwa [List.enum_map_snd] at h1
  · intro m q t a f o ha hf ho
    rw [performPartitionedSearch, ha, hf, ho]
  · norm_num [pySortCandidatesDesc, apparelCand, footwearCand, List.enum, List.enumFrom,
      List.insertionSort, List.orderedInsert, mergeRel] <;> rfl

/-- Witness: the planner equation of C3 applied to a concrete matcher
realizing the merge scenario end-to-end, with `T = 3`. -/
theorem claim_C3_merge_and_truncate_witness :
    performPartitionedSearch
      ⟨[], [], none,
        [("apparel", (["apparel1", "apparel2", "apparel3", "apparel4"],
            [[9/10], [4/5], [3/10], [1/5]])),
         ("footwear", (["footwear1", "footwear2", "footwear3", "footwear4"],
            [[17/20], [7/10], [2/5], [1/10]]))]⟩ [1] 3 =
      some (pySortCandidatesDesc
        ([("apparel1", 9/10), ("apparel2", 4/5), ("apparel3", 3/10)] ++
          [("footwear1", 17/20)] ++ [])) := by
  apply claim_C3_merge_and_truncate.2.1
  · simp only [searchInPartition, lookupPartition, List.find?, String.reduceBEq,
      Option.map, kApparel]
    norm_num [faissTopK, scoredRows, dotQ, rankLE, List.insertionSort,
      List.orderedInsert, collectPartitionResults, pyIndex] <;> rfl
  · simp only [searchInPartition, lookupPartition, List.find?, String.reduceBEq,
      Option.map, kFootwear]
    norm_num [faissTopK, scoredRows, dotQ, rankLE, List.insertionSort,
      List.orderedInsert, collectPartitionResults, pyIndex] <;> rfl
  · simp only [searchInPartition, lookupPartition, List.find?, String.reduceBEq,
      Option.map, kOthers]

/-! ### Index build, serialization and loading (`build_image_index`,
`load_image_index`) -/

/-- Persisted index blob: the `index_data` dict pickled by
`build_image_index` — the ordered identifier list, the raw feature matrix,
and the opaque `faiss.serialize_index` payload, which for a flat index is
determined by its row matrix and is modelled by that matrix. -/
structure IndexData where
  image_paths : List String
  image_features : List Vec
  image_index : List Vec

/-- Error taxonomy named by the specification for index builds.  The source
contains no raise site for either case, so the build function below never
returns an `error`; the type exists so that the spec claim about failures is
expressible. -/
inductive BuildError where
  | emptyInput
  | dimensionMismatch

/-- Model of `CLIPMatcher.build_image_index`, with directory listing and embedding
abstracted into the `(identifier, vector)` item batch: it always stores the
identifier list and feature matrix on the matcher; only when the batch is
non-empty does it build the FAISS index and pickle a blob.  On an empty
batch it silently skips — no exception, no blob, and the previously loaded
index object is left in place. -/
def buildImageIndex (m : Matcher) (items : List (String × Vec)) :
    Except BuildError (Matcher × Option IndexData) :=
  let paths := items.map Prod.fst
  let feats := items.map Prod.snd
  if 0 < feats.length then
    .ok ({ m with
        image_paths := paths
        image_features := feats
        image_index := some feats },
      some ⟨paths, feats, feats⟩)
  else
    .ok ({ m with image_paths := paths, image_features := feats }, none)

/-- Model of `CLIPMatcher.load_image_index` on a well-formed blob: restores the
identifier list, the feature matrix and the deserialized FAISS index. -/
def loadImageIndex (m : Matcher) (d : IndexData) : Matcher :=
  { m with
    image_paths := d.image_paths
    image_features := d.image_features
    image_index := some d.image_index }

/-- C4: deserializing the blob persisted by a build yields an index whose
`search_images_by_vector` results agree with the built index for every
query and every `k`, and the identifier list and item order are preserved
by the round-trip. -/
theorem claim_C4_roundtrip :
    ∀ (m m' : Matcher) (items : List (String × Vec)) (m2 : Matcher)
      (blob : IndexData),
      buildImageIndex m items = .ok (m2, some blob) →
      (∀ q k, searchImagesByVector (loadImageIndex m' blob) q k =
        searchImagesByVector m2 q k) ∧
      (loadImageIndex m' blob).image_paths = m2.image_paths ∧
      (loadImageIndex m' blob).image_features = m2.image_features ∧
      (loadImageIndex m' blob).image_index = m2.image_index := by
  intro m m' items m2 blob h
  rw [buildImageIndex] at h
  by_cases hlen : 0 < (items.map Prod.snd).length
  · rw [if_pos hlen] at h
    have h' := Except.ok.inj h
    rw [Prod.ext_iff] at h'
    obtain ⟨h1, h2⟩ := h'
    subst h1
    obtain rfl := Option.some_inj.mp h2
    exact ⟨fun q k => rfl, rfl, rfl, rfl⟩
  · rw [if_neg hlen] at h
    have h2 := congrArg Prod.snd (Except.ok.inj h)
    exact absurd h2.symm (by simp)

/-- Witness: the round-trip property applied to a one-item build. -/
theorem claim_C4_roundtrip_witness :
    searchImagesByVector
      (loadImageIndex ⟨[], [], none, []⟩ ⟨["a"], [[1]], [[1]]⟩) [1] 1 =
      searchImagesByVector
        ⟨["a"], [[1]], some [[1]], []⟩ [1] 1 :=
  (claim_C4_roundtrip ⟨[], [], none, []⟩ ⟨[], [], none, []⟩ [("a", [1])]
    ⟨["a"], [[1]], some [[1]], []⟩ ⟨["a"], [[1]], [[1]]⟩ (by rfl)).1 [1] 1

/-- C7 counterexample: building from an empty item batch returns normally
(`Except.ok`) — no `EmptyInputError` is raised; no index is constructed or
persisted (`none`), and the previously loaded index object survives. -/
theorem claim_C7_counterexample :
    buildImageIndex ⟨["x"], [[1]], some [[1]], []⟩ [] =
      .ok (⟨[], [], some [[1]], []⟩, none) := by rfl

/-- C7 (amended): the build never fails — there is no `EmptyInputError` or
`DimensionMismatchError` raise site.  An empty batch is skipped silently:
the matcher keeps its previous index object, the identifier list and
feature matrix are reset to empty, and nothing is persisted.  (Dimension
mismatches cannot arise inside a build, whose vectors all come from one
encoder call.) -/
theorem claim_C7_build_does_not_fail :
    (∀ (m : Matcher) (items : List (String × Vec)),
      ∃ r, buildImageIndex m items = .ok r) ∧
    (∀ m : Matcher, buildImageIndex m [] =
      .ok ({ m with image_paths := [], image_features := [] }, none)) ∧
    (∀ (e : BuildError) (m : Matcher) (items : List (String × Vec)),
      buildImageIndex m items ≠ .error e) := by
  refine ⟨?_, ?_, ?_⟩
  · intro m items
    rw [buildImageIndex]
    by_cases hlen : 0 < (items.map Prod.snd).length
    · exact ⟨_, by rw [if_pos hlen]⟩
    · exact ⟨_, by rw [if_neg hlen]⟩
  · intro m
    rfl
  · intro e m items
    rw [buildImageIndex]
    by_cases hlen : 0 < (items.map Prod.snd).length
    · rw [if_pos hlen]
      simp
    · rw [if_neg hlen]
      simp

/-- Witness: the no-failure property evaluated on the empty batch. -/
theorem claim_C7_build_does_not_fail_witness :
    buildImageIndex ⟨[], [], none, []⟩ [] = .ok (⟨[], [], none, []⟩, none) :=
  claim_C7_build_does_not_fail.2.1 ⟨[], [], none, []⟩

/-! ### String helpers modelling Python primitives -/

/-- Python `str.replace` over character lists, with fuel (one unit per
consumed character): replaces non-overlapping occurrences left to right. -/
def replaceCharsAux (old new : List Char) : ℕ → List Char → List Char
  | 0, s => s
  | _, [] => []
  | fuel + 1, c :: rest =>
    if old ≠ [] ∧ old.isPrefixOf (c :: rest) then
      new ++ replaceCharsAux old new fuel ((c :: rest).drop old.length)
    else c :: replaceCharsAux old new fuel rest

/-- Python `s.replace(old, new)` (every step consumes at least one
character, so `s.length` fuel always suffices). -/
def pyReplace (s old new : String) : String :=
  ⟨replaceCharsAux old.data new.data s.data.length s.data⟩

/-- Python `s.startswith(pat)`. -/
def pyStartsWith (s pat : String) : Bool := pat.data.isPrefixOf s.data

/-- Python `s.endswith(pat)`. -/
def pyEndsWith (s pat : String) : Bool := pat.data.isSuffixOf s.data

/-! ### Partition index loading (`load_partition_indexes`) -/

/-- Parsed content of a pickled partition blob; each field is present or
absent (the loader validates only the presence of `image_paths` and
`image_index`). -/
structure PartPayload where
  image_paths : Option (List String)
  image_features : Option (List Vec)
  image_index : Option (List Vec)

/-- A directory entry: file name plus parse outcome (`none` models
`pickle.load` or `faiss.deserialize_index` raising on a corrupt file, which
the loader catches and skips). -/
structure PartFile where
  name : String
  parsed : Option PartPayload

/-- One iteration of the `load_partition_indexes` loop: files matching
`index_*.pkl` are parsed, validated and registered under the category
obtained by stripping `index_` and `.pkl`; anything else is skipped without
failing, and the count is incremented per successful load. -/
def loadPartitionStep (acc : Matcher × ℕ) (f : PartFile) : Matcher × ℕ :=
  if pyStartsWith f.name "index_" && pyEndsWith f.name ".pkl" then
    match f.parsed with
    | none => acc
    | some payload =>
      match payload.image_paths, payload.image_index with
      | some paths, some mat =>
        ({ acc.1 with partition_indexes :=
            (pyReplace (pyReplace f.name "index_" "") ".pkl" "", (paths, mat)) ::
              acc.1.partition_indexes },
          acc.2 + 1)
      | _, _ => acc
  else acc

/-- The full loop of `load_partition_indexes` over a directory listing. -/
def loadPartitionFold (m : Matcher) (files : List PartFile) : Matcher × ℕ :=
  files.foldl loadPartitionStep (m, 0)

/-- Model of `CLIPMatcher.load_partition_indexes`: `none` models a missing directory
(`os.path.exists` false — the function prints and returns `False`); note
the function returns `count > 0`, a Boolean, not the count. -/
def loadPartitionIndexes (m : Matcher) (dir : Option (List PartFile)) :
    Matcher × Bool :=
  match dir with
  | none => (m, false)
  | some files =>
    let r := loadPartitionFold m files
    (r.1, decide (0 < r.2))

/-- A well-formed partition blob file used in the C8 counterexample. -/
def goodPartFile (n : String) : PartFile :=
  ⟨n, some ⟨some ["a"], none, some [[1]]⟩⟩

/-- C8 counterexample: the loader returns the same value (`true`) on a
directory with one loadable partition and on a directory with two, so its
return value is a Boolean success flag, not the count of successfully
loaded partitions. -/
theorem claim_C8_counterexample :
    (loadPartitionIndexes ⟨[], [], none, []⟩
        (some [goodPartFile "index_a.pkl"])).2 =
      (loadPartitionIndexes ⟨[], [], none, []⟩
        (some [goodPartFile "index_a.pkl", goodPartFile "index_b.pkl"])).2 ∧
    (loadPartitionIndexes ⟨[], [], none, []⟩
        (some [goodPartFile "index_a.pkl"])).1.partition_indexes.length = 1 ∧
    (loadPartitionIndexes ⟨[], [], none, []⟩
        (some [goodPartFile "index_a.pkl",
          goodPartFile "index_b.pkl"])).1.partition_indexes.length = 2 ∧
    (loadPartitionIndexes ⟨[], [], none, []⟩
        (some [goodPartFile "index_a.pkl"])).2 = true := by
  refine ⟨by rfl, by rfl, by rfl, by rfl⟩

/-- C8 (amended): loading all partition indexes returns a Boolean — whether
at least one partition loaded — rather than the count; it never raises for
a missing directory or an empty directory (both leave the matcher unchanged
and yield `false`), and it skips, without failing the load, every file that
fails to unpickle as well as every file whose payload lacks the
identifier-list or search-structure field. -/
theorem claim_C8_load_partitions :
    (∀ m : Matcher, loadPartitionIndexes m none = (m, false)) ∧
    (∀ m : Matcher, loadPartitionIndexes m (some []) = (m, false)) ∧
    (∀ (m : Matcher) (files : List PartFile),
      loadPartitionIndexes m (some files) =
        ((loadPartitionFold m files).1,
          decide (0 < (loadPartitionFold m files).2))) ∧
    (∀ (acc : Matcher × ℕ) (f : PartFile), f.parsed = none →
      loadPartitionStep acc f = acc) ∧
    (∀ (acc : Matcher × ℕ) (f : PartFile) (pp : Option (List String))
      (pfeat pidx : Option (List Vec)),
      f.parsed = some ⟨pp, pfeat, pidx⟩ →
      pp = none ∨ pidx = none →
      loadPartitionStep acc f = acc) := by
  refine ⟨fun m => rfl, fun m => rfl, fun m files => rfl, ?_, ?_⟩
  · intro acc f hf
    rw [loadPartitionStep, hf]
    split <;> rfl
  · intro acc f pp pfeat pidx hf hmiss
    rw [loadPartitionStep, hf]
    rcases hmiss with rfl | rfl
    · split <;> rfl
    · rcases pp with _ | p <;> split <;> rfl

/-- Witness: the skip property of C8 on a concrete corrupt file. -/
theorem claim_C8_load_partitions_witness :
    loadPartitionStep (⟨[], [], none, []⟩, 0) ⟨"index_bad.pkl", none⟩ =
      (⟨[], [], none, []⟩, 0) :=
  claim_C8_load_partitions.2.2.2.1 (⟨[], [], none, []⟩, 0)
    ⟨"index_bad.pkl", none⟩ rfl

/-! ### Session cache (`SearchService._last_search_cache`) -/

/-- The per-user search-result cache, most recent binding first: recording
models `self._last_search_cache[user_id] = current_paths` (dict overwrite —
lookups see only the newest binding for a user). -/
def recordCache (c : List (Int × List String)) (u : Int)
    (paths : List String) : List (Int × List String) :=
  (u, paths) :: c

/-- Model of `SearchService.get_cached_path`: `None` when the user has no entry or
the index is out of bounds, otherwise the cached identifier at the index. -/
def getCachedPath (c : List (Int × List String)) (u : Int) (i : Int) :
    Option String :=
  match c.find? (fun e => e.1 == u) with
  | none => none
  | some e => if 0 ≤ i ∧ i < (e.2.length : Int) then pyIndex e.2 i else none

/-- C9: recording a search-result list overwrites any prior entry for that
user, and resolution returns the i-th identifier of the most recently
recorded list exactly when the index is in bounds, `None` — never an
exception — when the user has no entry or the index is out of bounds; in
particular record(7, [a,b,c]) gives resolve(7,1) = b, resolve(7,5) = None,
resolve(8,0) = None. -/
theorem claim_C9_session_cache :
    (getCachedPath (recordCache [] 7 ["a", "b", "c"]) 7 1 = some "b" ∧
      getCachedPath (recordCache [] 7 ["a", "b", "c"]) 7 5 = none ∧
      getCachedPath (recordCache [] 7 ["a", "b", "c"]) 8 0 = none) ∧
    (∀ (c : List (Int × List String)) (u : Int) (ps qs : List String)
      (i : Int),
      getCachedPath (recordCache (recordCache c u qs) u ps) u i =
        getCachedPath (recordCache c u ps) u i) ∧
    (∀ (c : List (Int × List String)) (u : Int) (ps : List String) (i : Int),
      0 ≤ i → i < (ps.length : Int) →
      getCachedPath (recordCache c u ps) u i = ps[i.toNat]?) ∧
    (∀ (c : List (Int × List String)) (u i : Int),
      c.find? (fun e => e.1 == u) = none → getCachedPath c u i = none) ∧
    (∀ (c : List (Int × List String)) (u : Int) (ps : List String) (i : Int),
      ¬ (0 ≤ i ∧ i < (ps.length : Int)) →
      getCachedPath (recordCache c u ps) u i = none) := by
  refine ⟨⟨by decide, by decide, by decide⟩, ?_, ?_, ?_, ?_⟩
  · intro c u ps qs i
    simp [getCachedPath, recordCache, List.find?]
  · intro c u ps i h0 hl
    simp only [getCachedPath, recordCache, List.find?, beq_self_eq_true]
    rw [if_pos ⟨h0, hl⟩]
    simp [pyIndex, h0]
  · intro c u i h
    simp [getCachedPath, h]
  · intro c u ps i hni
    simp only [getCachedPath, recordCache, List.find?, beq_self_eq_true]
    rw [if_neg hni]

/-- Witness: C9 in-bounds resolution at a concrete cache. -/
theorem claim_C9_session_cache_witness :
    getCachedPath (recordCache [] 1 ["x"]) 1 0 = some "x" := by
  have h := claim_C9_session_cache.2.2.1 [] 1 ["x"] 0 (by decide) (by decide)
  simpa using h

/-! ### Image-by-image search (`search_images_by_image`) -/

/-- Result loop of `search_images_by_image`: skips rows that fail the
`idx < len` guard, skips the query image itself (absolute-path comparison),
appends everything else and breaks as soon as `top_k` results have been
collected. -/
def collectImageResults (absPath : String → String) (paths : List String)
    (qp : String) (top_k : Int) :
    List (ℚ × Int) → List (String × ℚ) → Option (List (String × ℚ))
  | [], acc => some acc
  | (s, idx) :: rest, acc =>
    if idx < (paths.length : Int) then
      match pyIndex paths idx with
      | none => none
      | some p =>
        if absPath p ≠ absPath qp then
          if top_k ≤ ((acc ++ [(p, s)]).length : Int) then some (acc ++ [(p, s)])
          else collectImageResults absPath paths qp top_k rest (acc ++ [(p, s)])
        else collectImageResults absPath paths qp top_k rest acc
    else collectImageResults absPath paths qp top_k rest acc

/-- Model of `CLIPMatcher.search_images_by_image`: encodes the query image
(`embed`), fetches `top_k + 1` candidates (one extra because the query may
be in the index) and filters the query itself out by absolute path. -/
def searchImagesByImage (absPath : String → String) (embed : String → Vec)
    (m : Matcher) (qp : String) (top_k : Int) : Option (List (String × ℚ)) :=
  match m.image_index with
  | none => some []
  | some mat =>
    match faissTopK mat (embed qp) (top_k + 1) with
    | none => none
    | some rows => collectImageResults absPath m.image_paths qp top_k rows []

/-- Loop invariant for `collectImageResults`: results keep excluding the
query path, and once fewer than `top_k` entries are accumulated the final
result has at most `top_k` entries. -/
theorem collectImageResults_spec (absPath : String → String)
    (paths : List String) (qp : String) (k : Int) :
    ∀ (rows : List (ℚ × Int)) (acc res : List (String × ℚ)),
      collectImageResults absPath paths qp k rows acc = some res →
      (∀ x ∈ acc, absPath x.1 ≠ absPath qp) →
      (∀ x ∈ res, absPath x.1 ≠ absPath qp) ∧
      (0 < k → (acc.length : Int) < k → res.length ≤ k.toNat) := by
  intro rows
  induction rows with
  | nil =>
    intro acc res h hacc
    obtain rfl : acc = res := Option.some_inj.mp h
    exact ⟨hacc, fun hk hlen => by omega⟩
  | cons hd tl ih =>
    obtain ⟨s, idx⟩ := hd
    intro acc res h hacc
    rw [collectImageResults] at h
    by_cases hg : idx < (paths.length : Int)
    · rw [if_pos hg] at h
      rcases hpy : pyIndex paths idx with _ | p
      · rw [hpy] at h
        exact absurd h (by simp)
      simp only [hpy] at h
      by_cases hne : absPath p ≠ absPath qp
      · rw [if_pos hne] at h
        have hacc2 : ∀ x ∈ acc ++ [(p, s)], absPath x.1 ≠ absPath qp := by
          intro x hx
          rcases List.mem_append.mp hx with hx | hx
          · exact hacc x hx
          · obtain rfl : x = (p, s) := by simpa using hx
            exact hne
        by_cases hbreak : k ≤ ((acc ++ [(p, s)]).length : Int)
        · rw [if_pos hbreak] at h
          obtain rfl : acc ++ [(p, s)] = res := Option.some_inj.mp h
          refine ⟨hacc2, fun hk hlen => ?_⟩
          have : (acc ++ [(p, s)]).length = acc.length + 1 := by simp
          omega
        · rw [if_neg hbreak] at h
          have := ih (acc ++ [(p, s)]) res h hacc2
          refine ⟨this.1, fun hk _ => this.2 hk ?_⟩
          omega
      · rw [if_neg hne] at h
        exact ih acc res h hacc
    · rw [if_neg hg] at h
      exact ih acc res h hacc

/-- Concrete two-item index for the C10 counterexample. -/
def cexC10 : Matcher := ⟨["a", "b"], [[1], [1/2]], some [[1], [1/2]], []⟩

/-- C10 counterexample: with `top_k = 0` the loop appends one result before
checking the break condition, so `search_images_by_image` returns 1 result,
exceeding `top_k`. -/
theorem claim_C10_counterexample :
    searchImagesByImage id (fun _ => [1]) cexC10 "q" 0 = some [("a", 1)] ∧
    ¬ ([("a", (1 : ℚ))].length ≤ 0) := by
  constructor
  · norm_num [searchImagesByImage, cexC10, faissTopK, scoredRows, dotQ, rankLE,
      List.insertionSort, List.orderedInsert, collectImageResults, pyIndex,
      String.reduceEq] <;> first | rfl | decide
  · decide

/-- C10 (amended): every identifier returned by `search_images_by_image`
differs from the query path under the absolute-path map, and for
`top_k ≥ 1` at most `top_k` results are returned even though `top_k + 1`
candidates are fetched; for `top_k = 0` one result can slip through before
the break check. -/
theorem claim_C10_image_search :
    ∀ (absPath : String → String) (embed : String → Vec) (m : Matcher)
      (qp : String) (k : Int) (r : List (String × ℚ)),
      searchImagesByImage absPath embed m qp k = some r →
      (∀ x ∈ r, absPath x.1 ≠ absPath qp) ∧ (1 ≤ k → r.length ≤ k.toNat) := by
  intro absPath embed m qp k r h
  rcases hm : m.image_index with _ | mat
  · rw [searchImagesByImage, hm] at h
    obtain rfl : [] = r := Option.some_inj.mp h
    exact ⟨by simp, fun _ => by simp⟩
  · simp only [searchImagesByImage, hm] at h
    rcases hf : faissTopK mat (embed qp) (k + 1) with _ | rows
    · rw [hf] at h
      exact absurd h (by simp)
    · simp only [hf] at h
      have hspec := collectImageResults_spec absPath m.image_paths qp k rows [] r
        h (by simp)
      refine ⟨hspec.1, fun hk => ?_⟩
      refine hspec.2 (by omega) ?_
      simp only [List.length_nil, Nat.cast_zero]
      omega

/-- Witness: the C10 contract applied to a concrete search with
`top_k = 1`. -/
theorem claim_C10_image_search_witness :
    ("a" : String) ≠ "q" ∧ [("a", (1 : ℚ))].length ≤ (1 : Int).toNat := by
  have hc : searchImagesByImage id (fun _ => [1]) cexC10 "q" 1 =
      some [("a", 1)] := by
    norm_num [searchImagesByImage, cexC10, faissTopK, scoredRows, dotQ, rankLE,
      List.insertionSort, List.orderedInsert, collectImageResults, pyIndex,
      String.reduceEq] <;> first | rfl | decide
  obtain ⟨h1, h2⟩ := claim_C10_image_search id (fun _ => [1]) cexC10 "q" 1
    [("a", 1)] hc
  exact ⟨by decide, h2 (by norm_num)⟩

/-! ### Partition classification (`build_partition_index`) -/

/-- Lower-casing a string character-wise (Python `str.lower` restricted to
the ASCII letters actually present in catalog captions). -/
def pyLower (s : String) : String := ⟨s.data.map Char.toLower⟩

/-- Substring containment over character lists (Python `pat in s`). -/
def listInfixCheck (pat : List Char) : List Char → Bool
  | [] => pat.isEmpty
  | c :: rest => pat.isPrefixOf (c :: rest) || listInfixCheck pat rest

/-- Python `pat in s` on strings. -/
def strContainsSub (s pat : String) : Bool := listInfixCheck pat.data s.data

/-- The ordered classification rules of `build_partition_index`: lower-case
the caption; `footwear`/`shoes` wins first, then `apparel`, else the
default bucket `others`. -/
def classifyCaption (caption : String) : String :=
  let c := pyLower caption
  if strContainsSub c "footwear" || strContainsSub c "shoes" then "footwear"
  else if strContainsSub c "apparel" then "apparel"
  else "others"

/-- The filename-to-category map built from the CSV rows
`(image, caption)`, later rows overwriting earlier ones, queried with
default `others` (`img_category_map.get(filename, "others")`). -/
def categoryOfFilename (rows : List (String × String)) (fname : String) :
    String :=
  match rows.reverse.find? (fun r => r.1 == fname) with
  | some r => classifyCaption r.2
  | none => "others"

/-- Category assigned to a catalog item: lookup of the item's base name in
the category map (`os.path.basename` abstracted as a key transform). -/
def itemCategory (basename : String → String)
    (rows : List (String × String)) (path : String) : String :=
  categoryOfFilename rows (basename path)

/-- C5: partition classification is a total deterministic function of the
raw label — every item receives exactly one key from the closed set
apparel/footwear/others (with `others` as the default bucket for unmatched
items and for items absent from the CSV); classification is
case-insensitive (it depends only on the lower-cased caption) and
first-matching-rule-wins (a caption containing both `footwear` and
`apparel` is classified `footwear`).  Determinism is immediate: the
assignment is a pure function of the rows and the filename. -/
theorem claim_C5_classification :
    (∀ (basename : String → String) (rows : List (String × String))
      (path : String),
      itemCategory basename rows path = "apparel" ∨
      itemCategory basename rows path = "footwear" ∨
      itemCategory basename rows path = "others") ∧
    (∀ s t : String, pyLower s = pyLower t →
      classifyCaption s = classifyCaption t) ∧
    (∀ s : String, strContainsSub (pyLower s) "footwear" = true →
      classifyCaption s = "footwear") ∧
    (∀ s : String, strContainsSub (pyLower s) "footwear" = false →
      strContainsSub (pyLower s) "shoes" = false →
      strContainsSub (pyLower s) "apparel" = true →
      classifyCaption s = "apparel") ∧
    (∀ s : String, strContainsSub (pyLower s) "footwear" = false →
      strContainsSub (pyLower s) "shoes" = false →
      strContainsSub (pyLower s) "apparel" = false →
      classifyCaption s = "others") ∧
    (∀ (rows : List (String × String)) (fname : String),
      (∀ r ∈ rows, r.1 ≠ fname) → categoryOfFilename rows fname = "others") := by
  refine ⟨?_, ?_, ?_, ?_, ?_, ?_⟩
  · intro basename rows path
    rw [itemCategory, categoryOfFilename]
    rcases hfind : rows.reverse.find? (fun r => r.1 == basename path) with _ | r
    · simp [hfind]
    · simp only [hfind]
      by_cases h1 : (strContainsSub (pyLower r.2) "footwear" ||
          strContainsSub (pyLower r.2) "shoes") = true
      · exact Or.inr (Or.inl (by simp [classifyCaption, h1]))
      · by_cases h2 : strContainsSub (pyLower r.2) "apparel" = true
        · exact Or.inl (by simp [classifyCaption, h1, h2])
        · exact Or.inr (Or.inr (by simp [classifyCaption, h1, h2]))
  · intro s t h
    simp only [classifyCaption]
    rw [h]
  · intro s h
    simp [classifyCaption, h]
  · intro s h1 h2 h3
    simp [classifyCaption, h1, h2, h3]
  · intro s h1 h2 h3
    simp [classifyCaption, h1, h2, h3]
  · intro rows fname h
    rw [categoryOfFilename]
    have : rows.reverse.find? (fun r => r.1 == fname) = none := by
      rw [List.find?_eq_none]
      intro r hr
      simpa using h r (List.mem_reverse.mp hr)
    rw [this]

/-- Witness: first-match-wins on a caption containing both keywords, and
the default bucket on an unmatched caption. -/
theorem claim_C5_classification_witness :
    classifyCaption "Apparel FOOTWEAR combo" = "footwear" ∧
    classifyCaption "Red Watch" = "others" :=
  ⟨claim_C5_classification.2.2.1 "Apparel FOOTWEAR combo" (by decide),
   claim_C5_classification.2.2.2.2.1 "Red Watch" (by decide) (by decide)
     (by decide)⟩

/-! ### Interest vector builder (`RecommendService._build_user_interest_vector`) -/

/-- Python `str.strip()` (whitespace trimming on both ends). -/
def pyTrim (s : String) : String :=
  ⟨((s.data.dropWhile Char.isWhitespace).reverse.dropWhile
    Char.isWhitespace).reverse⟩

/-- Cleans a recorded search query: strips the internal image-search marker
and surrounding whitespace (`s.replace("[图搜]", "").strip()`). -/
def cleanSearchQuery (s : String) : String := pyTrim (pyReplace s "[图搜]" "")

/-- A qualifying behavioural event returned by
`get_recent_combined_behavior`: an image click or a text search. -/
inductive BEvent where
  | click (value : String)
  | search (value : String)
deriving DecidableEq

/-- The click values of an event list, in order. -/
def clickValues (events : List BEvent) : List String :=
  events.filterMap fun e =>
    match e with
    | .click v => some v
    | _ => none

/-- The search values of an event list, in order. -/
def searchValues (events : List BEvent) : List String :=
  events.filterMap fun e =>
    match e with
    | .search v => some v
    | _ => none

/-- Sum of squares of the entries of a real vector. -/
def sumSq (v : List ℝ) : ℝ := (v.map fun x => x * x).sum

/-- Euclidean norm of a real vector. -/
noncomputable def l2norm (v : List ℝ) : ℝ := Real.sqrt (sumSq v)

/-- Entry-wise `v / np.linalg.norm(v)`. -/
noncomputable def l2normalize (v : List ℝ) : List ℝ :=
  v.map fun x => x / l2norm v

/-- Model of `np.vstack` followed by summation: entry-wise sum of equal-length
vectors. -/
def sumVecs : List (List ℝ) → List ℝ
  | [] => []
  | v :: rest => rest.foldl (fun acc w => List.zipWith (· + ·) acc w) v

/-- Entry-wise mean, `np.mean(vstack, axis=0)`. -/
noncomputable def meanVec (vs : List (List ℝ)) : List ℝ :=
  (sumVecs vs).map fun x => x / (vs.length : ℝ)

/-- Model of `RecommendService._build_user_interest_vector`, with the behaviour
fetch abstracted into the event list and the embedding provider into
`encImg`/`encTxt` (the contract guarantees one unit vector per input):
`None` on zero qualifying events, otherwise the L2-normalized entry-wise
mean of the click embeddings followed by the cleaned-search embeddings. -/
noncomputable def buildUserInterestVector (encImg encTxt : String → List ℝ)
    (events : List BEvent) : Option (List ℝ) :=
  if events = [] then none
  else
    let clicks := clickValues events
    let searches := searchValues events
    let imgVecs : List (List ℝ) := if clicks = [] then [] else clicks.map encImg
    let txtVecs : List (List ℝ) :=
      if searches = [] then [] else (searches.map cleanSearchQuery).map encTxt
    let allV := imgVecs ++ txtVecs
    if allV = [] then none
    else some (l2normalize (meanVec allV))

/-- Normalizing a unit vector is the identity. -/
theorem l2normalize_of_norm_one {v : List ℝ} (h : l2norm v = 1) :
    l2normalize v = v := by
  rw [l2normalize, h]
  simp

/-- The entry-wise mean of a single vector is that vector. -/
theorem meanVec_single (v : List ℝ) : meanVec [v] = v := by
  rw [meanVec, sumVecs]
  simp

/-- C6: the interest vector builder returns `None` (not an error) on zero
qualifying events; on exactly one click event it returns the unit-normalized
embedding of that image, hence exactly the embedding when the provider
returns a unit vector; and in general it returns the L2-normalized
entry-wise mean of the embeddings of the events (clicks batch first, then
cleaned searches). -/
theorem claim_C6_interest_vector :
    (∀ encImg encTxt : String → List ℝ,
      buildUserInterestVector encImg encTxt [] = none) ∧
    (∀ (encImg encTxt : String → List ℝ) (v : String),
      buildUserInterestVector encImg encTxt [BEvent.click v] =
        some (l2normalize (encImg v))) ∧
    (∀ (encImg encTxt : String → List ℝ) (v : String),
      l2norm (encImg v) = 1 →
      buildUserInterestVector encImg encTxt [BEvent.click v] =
        some (encImg v)) ∧
    (∀ (encImg encTxt : String → List ℝ) (events : List BEvent),
      events ≠ [] →
      buildUserInterestVector encImg encTxt events =
        some (l2normalize (meanVec
          ((if clickValues events = [] then []
            else (clickValues events).map encImg) ++
            (if searchValues events = [] then []
            else ((searchValues events).map cleanSearchQuery).map encTxt))))) := by
  have hgen : ∀ (encImg encTxt : String → List ℝ) (events : List BEvent),
      events ≠ [] →
      buildUserInterestVector encImg encTxt events =
        some (l2normalize (meanVec
          ((if clickValues events = [] then []
            else (clickValues events).map encImg) ++
            (if searchValues events = [] then []
            else ((searchValues events).map cleanSearchQuery).map encTxt)))) := by
    intro encImg encTxt events hne
    have hall : ((if clickValues events = [] then []
        else (clickValues events).map encImg) ++
        (if searchValues events = [] then []
        else ((searchValues events).map cleanSearchQuery).map encTxt)) ≠ [] := by
      rcases events with _ | ⟨e, rest⟩
      · exact absurd rfl hne
      rcases e with v | v
      · have hc : clickValues (BEvent.click v :: rest) ≠ [] := by
          simp [clickValues]
        intro hcontra
        rcases List.append_eq_nil.mp hcontra with ⟨h1, _⟩
        rw [if_neg hc] at h1
        exact hc (by simpa using h1)
      · have hs : searchValues (BEvent.search v :: rest) ≠ [] := by
          simp [searchValues]
        intro hcontra
        rcases List.append_eq_nil.mp hcontra with ⟨_, h2⟩
        rw [if_neg hs] at h2
        exact hs (by simpa using h2)
    rw [buildUserInterestVector, if_neg hne]
    simp only [if_neg hall]
  refine ⟨fun encImg encTxt => rfl, ?_, ?_, hgen⟩
  · intro encImg encTxt v
    rw [hgen encImg encTxt [BEvent.click v] (by simp)]
    simp [clickValues, searchValues, meanVec_single]
  · intro encImg encTxt v hunit
    rw [hgen encImg encTxt [BEvent.click v] (by simp)]
    simp [clickValues, searchValues, meanVec_single,
      l2normalize_of_norm_one hunit]

/-- Witness: one click event whose embedding is the unit vector `[1]`
resolves to exactly that embedding. -/
theorem claim_C6_interest_vector_witness :
    buildUserInterestVector (fun _ => [(1 : ℝ)]) (fun _ => [(1 : ℝ)])
      [BEvent.click "img"] = some [(1 : ℝ)] := by
  refine claim_C6_interest_vector.2.2.1 _ _ "img" ?_
  rw [l2norm, sumSq]
  norm_num
